import Mathlib

/-!
Verification of the tsrc workspace-synchronization core.

Shallow embedding of the core of `tsrc` (group-based repository selection
over a manifest, per-repository status/reset primitives, partial-failure
batch execution, snapshot generation) together with proofs of the spec
claims about it.

Each definition is translated from the corresponding Python source file
(`tsrc/git.py`, `tsrc/manifest.py`, `tsrc/cli/status.py`, `tsrc/cli/reset.py`,
`tsrc/workspace/local_manifest.py`).  Python strings are modelled by Lean
`String`; string splitting is modelled character-by-character so that all
definitions reduce in the kernel.
-/

deriving instance DecidableEq for Except

namespace Tsrc

/-! String helpers: Python `str.split` / `str.splitlines` / `str.startswith`. -/

/-- Python `s.split(sep)` for a single-character separator, over char lists:
`"".split('/') = [""]`, `"a/b".split('/') = ["a","b"]`, `"/".split('/') = ["",""]`. -/
def splitCharAux (sep : Char) : List Char → List Char → List (List Char)
  | [], acc => [acc.reverse]
  | c :: rest, acc =>
      if c = sep then acc.reverse :: splitCharAux sep rest []
      else splitCharAux sep rest (c :: acc)

/-- Python `s.split(sep)` for a single-character separator, on strings. -/
def pySplit (sep : Char) (s : String) : List String :=
  (splitCharAux sep s.data []).map (fun cs => ⟨cs⟩)

/-- Python `s.splitlines()` restricted to `\n`-separated text (the only
separator occurring in captured git output): split at `'\n'` and drop a
final empty piece, so `"".splitlines() = []` and `"a\n".splitlines() = ["a"]`. -/
def pySplitlines (s : String) : List String :=
  let ps := pySplit '\n' s
  if ps.getLast? = some "" then ps.dropLast else ps

/-- Python `line.startswith(p)`. -/
def pyStartswith (p : String) (s : String) : Bool :=
  p.data.isPrefixOf s.data

/-- Python `s.strip()`: remove leading and trailing whitespace. -/
def pyStrip (s : String) : String :=
  ⟨(((s.data.dropWhile Char.isWhitespace).reverse).dropWhile Char.isWhitespace).reverse⟩

/-- Lexicographic code-point comparison of char lists: Python's `<=` on
strings, as used by `sorted(res, key=operator.attrgetter("src"))`. -/
def lexLeChars : List Char → List Char → Bool
  | [], _ => true
  | _ :: _, [] => false
  | a :: as, b :: bs =>
      if a.toNat < b.toNat then true
      else if a.toNat = b.toNat then lexLeChars as bs
      else false

/-- Python `a <= b` on strings (lexicographic by code point). -/
def pyStrLe (a b : String) : Bool :=
  lexLeChars a.data b.data

/-- The sort key relation of `Manifest._get_repos_in_groups`. -/
def srcLe (a b : String) : Prop :=
  pyStrLe a b = true

instance : DecidableRel srcLe := fun a b => by unfold srcLe; infer_instance

/-! Data model: `tsrc.Remote` and `tsrc.Repo` (attrs classes referenced from
`tsrc/manifest.py`; fields as constructed by `Manifest._handle_repo`). -/

/-- A named remote with its URL (`tsrc.Remote`). -/
structure Remote where
  name : String
  url : String
deriving DecidableEq

/-- A manifest repository (`tsrc.Repo`): `src` is the unique key,
`branch` defaults to "master", `tag`/`sha1` optional, plus its remotes. -/
structure Repo where
  src : String
  branch : String
  tag : Option String
  sha1 : Option String
  remotes : List Remote
deriving DecidableEq

/-! Repository status computation, from `tsrc/git.py`.

`Status.__init__` starts every counter at 0 and `dirty = False`
(git.py 52-65).  `update_remote_status` (git.py 89-100) runs two
`git rev-list` queries with `check=False` and only overwrites the counters
when the return code is zero; `update_worktree_status` (git.py 102-117)
classifies each line of `git status --porcelain` output with four
independent `if` statements. -/

/-- The worktree-related fields of `tsrc.git.Status`. -/
structure WorktreeStatus where
  untracked : Nat
  staged : Nat
  not_staged : Nat
  added : Nat
  dirty : Bool
deriving DecidableEq

/-- Loop body of `Status.update_worktree_status` (git.py 105-117): the four
`if line.startswith(...)` statements, applied in source order. -/
def updateWorktreeLine (st : WorktreeStatus) (line : String) : WorktreeStatus :=
  let st := if pyStartswith "??" line then
    { st with untracked := st.untracked + 1, dirty := true } else st
  let st := if pyStartswith " M" line then
    { st with staged := st.staged + 1, dirty := true } else st
  let st := if pyStartswith " .M" line then
    { st with not_staged := st.not_staged + 1, dirty := true } else st
  let st := if pyStartswith "A " line then
    { st with added := st.added + 1, dirty := true } else st
  st

/-- `Status.update_worktree_status` (git.py 102-117) folded over the lines of
the captured `git status --porcelain` output. -/
def update_worktree_status (st : WorktreeStatus) (out : String) : WorktreeStatus :=
  (pySplitlines out).foldl updateWorktreeLine st

/-- `Status.update_remote_status` (git.py 89-100): takes the initial
`(ahead, behind)` counters and the `(returncode, output)` of the two
`git rev-list` invocations (run with `check=False`, so a non-zero return
code raises nothing); each counter is overwritten with the line count of
the corresponding output only when that query's return code is zero. -/
def update_remote_status (ahead0 behind0 : Nat) (rcAhead : Int) (aheadRev : String)
    (rcBehind : Int) (behindRev : String) : Nat × Nat :=
  let ahead := if rcAhead = 0 then (pySplitlines aheadRev).length else ahead0
  let behind := if rcBehind = 0 then (pySplitlines behindRev).length else behind0
  (ahead, behind)

/-! Reset-to-snapshot tracking-ref discovery, from `tsrc/git.py`
(`reset_repo`, git.py 219-251, and `guess_tracking_ref`, git.py 254-266). -/

/-- Errors that can escape the tracking-ref part of `reset_repo`. -/
inductive ResetError
  /-- Python `ValueError` raised by the tuple unpacking
  `remote, remote_branch = candidate.split('/')` when the split does not
  yield exactly two parts (git.py 239). -/
  | valueError
  /-- `tsrc.git.NoTrackingRef` (git.py 245). -/
  | noTrackingRef
  /-- Python `TypeError` from iterating over `None` when
  `guess_tracking_ref` returned `None` (git.py 238). -/
  | typeError
deriving DecidableEq

/-- The candidate loop of `reset_repo` (git.py 238-245): each candidate is
first destructured by `candidate.split('/')` into exactly two parts (a
`ValueError` escapes otherwise), then kept as the tracking ref iff the
second part equals the target branch; an exhausted loop leaves
`tracking_ref` unset and `NoTrackingRef` is raised (git.py 244-245). -/
def pickTrackingRef (branch : String) : List String → Except ResetError String
  | [] => .error .noTrackingRef
  | candidate :: rest =>
      match pySplit '/' candidate with
      | [_remote, remote_branch] =>
          if branch = remote_branch then .ok candidate
          else pickTrackingRef branch rest
      | _ => .error .valueError

/-- `guess_tracking_ref` (git.py 254-266): on a zero return code of
`git branch -r --contains <sha1>`, the stripped output lines; `None`
otherwise. -/
def guess_tracking_ref (rc : Int) (out : String) : Option (List String) :=
  if rc = 0 then some ((pySplitlines out).map pyStrip) else none

/-- The tracking-ref resolution step of `reset_repo` (git.py 229-249):
a configured upstream (`get_tracking_ref`) is used as-is; otherwise the
guessed candidates are scanned by `pickTrackingRef`.  The returned ref is
the one subsequently passed to `git merge --ff-only` (git.py 249). -/
def reset_repo_tracking (branch : String) (configured : Option String)
    (rcBranches : Int) (branchesOut : String) : Except ResetError String :=
  match configured with
  | some t => .ok t
  | none =>
      match guess_tracking_ref rcBranches branchesOut with
      | none => .error .typeError
      | some candidates => pickTrackingRef branch candidates

/-! Snapshot generation, from `tsrc/manifest.py` (`create_snapshot`,
manifest.py 148-198) and `tsrc/workspace/local_manifest.py`
(`LocalManifest.create_snapshot`, local_manifest.py 43-54). -/

/-- Python `dict.setdefault(k, v)` on an insertion-ordered association
list: inserts `(k, v)` only when `k` is not yet a key. -/
def setdefaultList (d : List (String × String)) (k v : String) : List (String × String) :=
  if d.any (fun p => p.1 == k) then d else d ++ [(k, v)]

/-- One emitted snapshot entry (the per-repository dict built by
`create_snapshot`): `url` for the single-remote shorthand form,
`remotes` for the explicit multi-remote form. -/
structure SnapshotRepo where
  src : String
  branch : String
  sha1 : Option String
  url : Option String
  remotes : List Remote
deriving DecidableEq

/-- One iteration of `create_snapshot`'s per-repository loop
(manifest.py 153-195), given: the repository name, the captured output of
`git rev-parse --abbrev-ref HEAD`, whether the `sha1` option was set, the
result of `git rev-parse --short --verify HEAD` (`.error` = the
`CommandError` of a repository without commits, which discards the entry
with a warning), the captured output of `git remote`, and the URL
`git remote get-url` reports for each remote.  Returns `none` when the
loop `continue`s (entry discarded). -/
def snapshot_entry (name : String) (branchOut : String) (withSha1 : Bool)
    (sha1Result : Except Unit String) (remoteOut : String)
    (urlOf : String → String) : Option SnapshotRepo :=
  let sha1Step : Option (Option String) :=
    if withSha1 then
      match sha1Result with
      | .error _ => none
      | .ok s => some (some s)
    else some none
  match sha1Step with
  | none => none
  | some sha1 =>
      let remoteNames := (pySplit '\n' remoteOut).filter (fun r => r ≠ "")
      let remotesDict := remoteNames.foldl (fun d r => setdefaultList d r (urlOf r)) []
      if remotesDict = [] then none
      else if remotesDict.length = 1 then
        some { src := name, branch := branchOut, sha1 := sha1,
               url := some ((remotesDict.map Prod.snd).headI), remotes := [] }
      else
        some { src := name, branch := branchOut, sha1 := sha1, url := none,
               remotes := remotesDict.map (fun p => ⟨p.1, p.2⟩) }

/-- `LocalManifest.create_snapshot` (local_manifest.py 43-54) after the
destination path has been resolved: given whether `yml_path` already
exists on disk and the `force` flag, either fail with the explanatory
error (performing no write) or proceed to `tsrc.manifest.create_snapshot`,
which serializes the snapshot document to `yml_path`; the returned list
holds the paths written. -/
def create_snapshot_cmd (fileExists : Bool) (force : Bool)
    (yml_path : String) : Except String (List String) :=
  if fileExists && !force then
    .error ("Manifest already found in " ++ yml_path ++ ". Use -f to force creation.")
  else
    .ok [yml_path]

/-! Batch runner, from `tsrc/cli/status.py` (`StatusCollector.process`,
status.py 106-118) and `tsrc/cli/reset.py` (`ResetCollector.process`,
reset.py 43-57).  The two `process` methods are the same algorithm with
different per-repository operations (`tsrc.git.get_status` resp.
`tsrc.git.reset_repo`), so they are embedded once, parameterized by the
operation. -/

/-- The per-repository result stored in the collector's ordered dict
(`StatusOrError` / `ResetOrError`): `tsrc.errors.MissingRepo`, a caught
exception, or the operation's value. -/
inductive Outcome (E A : Type)
  | missingRepo (src : String)
  | exn (e : E)
  | ok (a : A)
deriving DecidableEq

/-- Assignment `d[k] = v` on a Python `collections.OrderedDict` modelled as
an insertion-ordered association list: an existing key keeps its position
and gets the new value, a fresh key is appended. -/
def odInsert (m : List (String × α)) (k : String) (v : α) : List (String × α) :=
  if m.any (fun p => p.1 == k) then
    m.map (fun p => if p.1 == k then (k, v) else p)
  else m ++ [(k, v)]

/-- `StatusCollector.process` / `ResetCollector.process` (status.py
106-118, reset.py 43-57), parameterized by the working-copy existence
check `full_path.exists()` and the per-repository operation `op` (whose
`Except.error` models a raised exception, caught by the
`except Exception` clause): a missing working copy records
`MissingRepo(repo.src)` and returns without invoking `op`; otherwise the
operation's value or its exception is recorded under `repo.src`. -/
def collector_process (pathExists : Repo → Bool) (op : Repo → Except E A)
    (statuses : List (String × Outcome E A)) (repo : Repo) :
    List (String × Outcome E A) :=
  if !pathExists repo then
    odInsert statuses repo.src (.missingRepo repo.src)
  else
    match op repo with
    | .ok a => odInsert statuses repo.src (.ok a)
    | .error e => odInsert statuses repo.src (.exn e)

/-- Modelled from the spec: `tsrc.run_sequence` (the Batch Runner driving
both collectors) is not among the provided sources; per spec §4.5 it
"processes every repository, in the given order, regardless of individual
outcomes", invoking the collector's `process` once per repository. -/
def run_sequence (pathExists : Repo → Bool) (op : Repo → Except E A)
    (repos : List Repo) : List (String × Outcome E A) :=
  repos.foldl (collector_process pathExists op) []

/-- The outcome `collector_process` records for one repository: the three
branches of the `process` methods, named for use in statements. -/
def collectorOutcome (pathExists : Repo → Bool) (op : Repo → Except E A)
    (r : Repo) : Outcome E A :=
  if pathExists r then
    match op r with
    | .ok a => Outcome.ok a
    | .error e => Outcome.exn e
  else Outcome.missingRepo r.src

/-! Group resolver and manifest model, from `tsrc/manifest.py` (class
`Manifest`, `validate_repo`, `load`).  The `tsrc.GroupList` class itself
(`tsrc/groups.py`) is not among the provided sources — only its callers in
`tsrc/manifest.py` are — so the resolver is modelled from spec §4.1. -/

/-- Errors of the manifest / group layer: the two `schema.SchemaError`s of
`validate_repo` (manifest.py 138-145), the group resolver errors of spec
§4.1 and §7, and `tsrc.manifest.RepoNotFound` (manifest.py 20-22). -/
inductive Err
  | bothUrlAndRemotes
  | neitherUrlNorRemotes
  | unknownElement (name : String)
  | unknownGroup (name : String)
  | cyclicGroupReference (name : String)
  | depthExceeded
  | repoNotFound (src : String)
deriving DecidableEq

/-- Modelled from the spec (§3): a group is a named set of repository
srcs plus an ordered list of included group names. -/
structure Group where
  name : String
  elements : List String
  includes : List String
deriving DecidableEq

/-- Modelled from the spec (§3): the group registry with its universe of
known repository srcs (`tsrc/groups.py` is not among the sources). -/
structure GroupList where
  allElements : List String
  groups : List Group
deriving DecidableEq

/-- Modelled from the spec (§4.1): `getGroup(name)`, the existence check
used to detect an implicit "default" group. -/
def GroupList.get_group (gl : GroupList) (name : String) : Option Group :=
  gl.groups.find? (fun g => g.name == name)

/-- Modelled from the spec (§4.1): `add(name, elements, includes)`
registers a group and fails with `UnknownElement` if any element is
outside the universe. -/
def GroupList.add (gl : GroupList) (name : String) (elements : List String)
    (includes : List String) : Except Err GroupList :=
  if elements.all (fun e => gl.allElements.contains e) then
    .ok { gl with groups := gl.groups ++ [⟨name, elements, includes⟩] }
  else
    .error (.unknownElement name)

/-- Resolves a list of group names with a given single-group resolver,
short-circuiting on the first error and unioning the results
(`List.union` keeps the first occurrence of each element, so the result
is duplicate-free whenever the accumulated part is). -/
def resolveIncludesWith (f : String → Except Err (List String)) :
    List String → Except Err (List String)
  | [] => .ok []
  | inc :: rest =>
      match f inc with
      | .error e => .error e
      | .ok s =>
          match resolveIncludesWith f rest with
          | .error e => .error e
          | .ok t => .ok (s ∪ t)

/-- Modelled from the spec (§4.1, §9): recursive group resolution that
"track[s] the set of groups visited on the current recursion path and
fail[s] with a `CyclicGroupReference` error if a group is revisited before
the path unwinds"; a group's value is the union of its explicit elements
with the recursively resolved elements of every included group.  The
recursion is bounded by explicit fuel; `resolveGroupAux_no_fuel_error`
below shows the `depthExceeded` case is unreachable at the fuel used by
`GroupList.get_elements`. -/
def resolveGroupAux (gl : GroupList) (fuel : Nat) :
    List String → String → Except Err (List String) :=
  Nat.rec (motive := fun _ => List String → String → Except Err (List String))
    (fun _ _ => .error .depthExceeded)
    (fun _ ih path name =>
      if name ∈ path then .error (.cyclicGroupReference name)
      else
        match gl.get_group name with
        | none => .error (.unknownGroup name)
        | some g =>
            match resolveIncludesWith (ih (name :: path)) g.includes with
            | .error e => .error e
            | .ok s => .ok (g.elements ∪ s))
    fuel

/-- Modelled from the spec (§4.1): `getElements(groupNames)` resolves every
requested group with an empty visited path and unions the results
(a duplicate-free list modelling the resulting src set). -/
def GroupList.get_elements (gl : GroupList) (names : List String) :
    Except Err (List String) :=
  resolveIncludesWith (resolveGroupAux gl (gl.groups.length + 1) []) names

/-- The names of the registered groups. -/
def groupNames (gl : GroupList) : List String :=
  gl.groups.map Group.name

/-- Direct include edge between group names: `a`'s registered group lists
`b` among its includes. -/
def IncludeEdge (gl : GroupList) (a b : String) : Prop :=
  ∃ g, gl.get_group a = some g ∧ b ∈ g.includes

/-- Reachability along include edges (reflexive-transitive closure). -/
def Reaches (gl : GroupList) : String → String → Prop :=
  Relation.ReflTransGen (IncludeEdge gl)

/-- The group can reach a cycle of the includes relation. -/
def ReachesCycle (gl : GroupList) (n : String) : Prop :=
  ∃ t, Reaches gl n t ∧ Relation.TransGen (IncludeEdge gl) t t

/-- Every include of every registered group is itself registered (the
GroupList invariant of spec §3). -/
def WellFormedGL (gl : GroupList) : Prop :=
  ∀ g ∈ gl.groups, ∀ b ∈ g.includes, b ∈ groupNames gl

/-- The spec's canonical cyclic example: group A includes B and B
includes A. -/
def cycleGL : GroupList :=
  ⟨["a", "b"], [⟨"A", ["a"], ["B"]⟩, ⟨"B", ["b"], ["A"]⟩]⟩

/-- The manifest model (`tsrc.manifest.Manifest`): the ordered repository
list `_repos` and the group list built by `_handle_groups`
(copy directives and git-server URLs are irrelevant to the claims). -/
structure Manifest where
  repos : List Repo
  group_list : GroupList
deriving DecidableEq

/-- `Manifest.get_repo` (manifest.py 114-118): first repository whose
`src` matches, else `RepoNotFound`. -/
def Manifest.get_repo (m : Manifest) (src : String) : Except Err Repo :=
  match m.repos.find? (fun r => r.src == src) with
  | some r => .ok r
  | none => .error (.repoNotFound src)

/-- The `for src in elements: res.append(self.get_repo(src))` loop of
`Manifest._get_repos_in_groups` (manifest.py 109-111). -/
def Manifest.mapGetRepos (m : Manifest) : List String → Except Err (List Repo)
  | [] => .ok []
  | s :: rest =>
      match m.get_repo s with
      | .error e => .error e
      | .ok r =>
          match m.mapGetRepos rest with
          | .error e => .error e
          | .ok rs => .ok (r :: rs)

/-- `Manifest._get_repos_in_groups` (manifest.py 106-112): resolve the
requested groups to a src set, look each src up, and return the result
sorted by `src` (`sorted(res, key=operator.attrgetter("src"))`).  The src
set is iterated in sorted order here; since each looked-up repository
carries exactly the src it was looked up under, this equals the source's
build-then-sort on every input. -/
def Manifest.get_repos_in_groups (m : Manifest) (groups : List String) :
    Except Err (List Repo) :=
  match m.group_list.get_elements groups with
  | .error e => .error e
  | .ok elements => m.mapGetRepos (elements.insertionSort srcLe)

/-- `Manifest._has_default_group` (manifest.py 102-104). -/
def Manifest.has_default_group (m : Manifest) : Bool :=
  (m.group_list.get_group "default").isSome

/-- `Manifest.get_repos` (manifest.py 88-100).  `groups.getD [] = []`
renders Python's truthiness test `if not groups:`, which holds for both
`None` and `[]`. -/
def Manifest.get_repos (m : Manifest) (groups : Option (List String))
    (all_ : Bool) : Except Err (List Repo) :=
  if all_ then .ok m.repos
  else if groups.getD [] = [] then
    if m.has_default_group then m.get_repos_in_groups ["default"]
    else .ok m.repos
  else m.get_repos_in_groups (groups.getD [])

/-! Repository-config validation and manifest loading
(`validate_repo`, manifest.py 121-145; `load`, manifest.py 201-218). -/

/-- A repository config dict as seen by `validate_repo` and
`Manifest._handle_repo`: optional fields are `None` when the key is
absent (copy directives omitted, irrelevant to the claims). -/
structure RepoConfig where
  src : String
  branch : Option String
  tag : Option String
  sha1 : Option String
  url : Option String
  remotes : Option (List Remote)
deriving DecidableEq

/-- Python truthiness of `data.get("url")`: `None` and `""` are falsy. -/
def pyTruthyStr : Option String → Bool
  | none => false
  | some s => s ≠ ""

/-- Python truthiness of `data.get("remotes")`: `None` and `[]` are falsy. -/
def pyTruthyList : Option (List α) → Bool
  | none => false
  | some l => !l.isEmpty

/-- `validate_repo` (manifest.py 121-145) after the structural schema
check: `if url and remotes` raises, then `if not url and not remotes`
raises (the two `schema.SchemaError`s). -/
def validate_repo (data : RepoConfig) : Except Err Unit :=
  if pyTruthyStr data.url && pyTruthyList data.remotes then
    .error .bothUrlAndRemotes
  else if !pyTruthyStr data.url && !pyTruthyList data.remotes then
    .error .neitherUrlNorRemotes
  else .ok ()

/-- `Manifest._handle_repo` with `_handle_remotes` (manifest.py 44-67):
branch defaults to "master"; a truthy `url` synthesizes the single
"origin" remote, otherwise the explicit remotes list (or `[]`) is used. -/
def handle_repo (cfg : RepoConfig) : Repo :=
  { src := cfg.src
    branch := cfg.branch.getD "master"
    tag := cfg.tag
    sha1 := cfg.sha1
    remotes :=
      if pyTruthyStr cfg.url then [⟨"origin", cfg.url.getD ""⟩]
      else cfg.remotes.getD [] }

/-- A group config entry (`groups_config` in `Manifest._handle_groups`,
manifest.py 79-86): `includes` defaults to `[]`. -/
structure GroupConfig where
  name : String
  repos : List String
  includes : List String
deriving DecidableEq

/-- The per-repository validation pass performed by `tsrc.parse_config`
via `schema.Use(validate_repo)` (manifest.py 203, 213): the whole document
is validated before `Manifest.load` runs. -/
def validateAll : List RepoConfig → Except Err Unit
  | [] => .ok ()
  | cfg :: rest =>
      match validate_repo cfg with
      | .error e => .error e
      | .ok () => validateAll rest

/-- The group-registration loop of `Manifest._handle_groups`
(manifest.py 82-86). -/
def addGroups (gl : GroupList) : List GroupConfig → Except Err GroupList
  | [] => .ok gl
  | gc :: rest =>
      match gl.add gc.name gc.repos gc.includes with
      | .error e => .error e
      | .ok gl' => addGroups gl' rest

/-- `tsrc.manifest.load` followed by `Manifest.load` (manifest.py 33-42,
201-218): schema validation of every repo config first; only then are the
`tsrc.Repo` values built (`_handle_repo`) and the group list registered
(`_handle_groups`, seeded with the universe of built repo srcs). -/
def load_manifest (repoCfgs : List RepoConfig) (groupCfgs : List GroupConfig) :
    Except Err Manifest :=
  match validateAll repoCfgs with
  | .error e => .error e
  | .ok () =>
      let repos := repoCfgs.map handle_repo
      match addGroups { allElements := repos.map Repo.src, groups := [] } groupCfgs with
      | .error e => .error e
      | .ok gl => .ok { repos := repos, group_list := gl }

/-! Theorems.  Each claim of the specification gets exactly one theorem
(plus a witness instantiating it at concrete inputs where it carries
hypotheses); auxiliary lemmas come first. -/

/-- `pyStartswith p s` holds exactly when `s`'s characters extend `p`'s. -/
theorem pyStartswith_iff (p s : String) :
    pyStartswith p s = true ↔ ∃ t, s.data = p.data ++ t := by
  simp only [pyStartswith, List.isPrefixOf_iff_prefix, List.IsPrefix]
  constructor
  · rintro ⟨t, ht⟩; exact ⟨t, ht.symm⟩
  · rintro ⟨t, ht⟩; exact ⟨t, ht.symm⟩

/-- C4: for every line of the machine-readable status listing, a leading
"??" increments `untracked` and sets `dirty`; a leading " M" increments
`staged` and sets `dirty`; a leading " .M" increments `not_staged` and
sets `dirty`; a leading "A " increments `added` and sets `dirty`; any
other line leaves all counters and the dirty flag unchanged; and
`update_worktree_status` applies this classification to each line of the
listing in order. -/
theorem worktree_line_classification (st : WorktreeStatus) (line : String) :
    (pyStartswith "??" line = true →
      updateWorktreeLine st line =
        { st with untracked := st.untracked + 1, dirty := true }) ∧
    (pyStartswith " M" line = true →
      updateWorktreeLine st line =
        { st with staged := st.staged + 1, dirty := true }) ∧
    (pyStartswith " .M" line = true →
      updateWorktreeLine st line =
        { st with not_staged := st.not_staged + 1, dirty := true }) ∧
    (pyStartswith "A " line = true →
      updateWorktreeLine st line =
        { st with added := st.added + 1, dirty := true }) ∧
    (pyStartswith "??" line = false → pyStartswith " M" line = false →
      pyStartswith " .M" line = false → pyStartswith "A " line = false →
      updateWorktreeLine st line = st) ∧
    (∀ out, update_worktree_status st out =
      (pySplitlines out).foldl updateWorktreeLine st) := by
  refine ⟨?_, ?_, ?_, ?_, ?_, fun _ => rfl⟩
  · intro h
    obtain ⟨t, ht⟩ := (pyStartswith_iff _ _).1 h
    have h2 : pyStartswith " M" line = false := by
      simp [pyStartswith, ht, List.isPrefixOf]
    have h3 : pyStartswith " .M" line = false := by
      simp [pyStartswith, ht, List.isPrefixOf]
    have h4 : pyStartswith "A " line = false := by
      simp [pyStartswith, ht, List.isPrefixOf]
    simp [updateWorktreeLine, h, h2, h3, h4]
  · intro h
    obtain ⟨t, ht⟩ := (pyStartswith_iff _ _).1 h
    have h1 : pyStartswith "??" line = false := by
      simp [pyStartswith, ht, List.isPrefixOf]
    have h3 : pyStartswith " .M" line = false := by
      simp [pyStartswith, ht, List.isPrefixOf]
    have h4 : pyStartswith "A " line = false := by
      simp [pyStartswith, ht, List.isPrefixOf]
    simp [updateWorktreeLine, h, h1, h3, h4]
  · intro h
    obtain ⟨t, ht⟩ := (pyStartswith_iff _ _).1 h
    have h1 : pyStartswith "??" line = false := by
      simp [pyStartswith, ht, List.isPrefixOf]
    have h2 : pyStartswith " M" line = false := by
      simp [pyStartswith, ht, List.isPrefixOf]
    have h4 : pyStartswith "A " line = false := by
      simp [pyStartswith, ht, List.isPrefixOf]
    simp [updateWorktreeLine, h, h1, h2, h4]
  · intro h
    obtain ⟨t, ht⟩ := (pyStartswith_iff _ _).1 h
    have h1 : pyStartswith "??" line = false := by
      simp [pyStartswith, ht, List.isPrefixOf]
    have h2 : pyStartswith " M" line = false := by
      simp [pyStartswith, ht, List.isPrefixOf]
    have h3 : pyStartswith " .M" line = false := by
      simp [pyStartswith, ht, List.isPrefixOf]
    simp [updateWorktreeLine, h, h1, h2, h3]
  · intro h1 h2 h3 h4
    simp [updateWorktreeLine, h1, h2, h3, h4]

/-- Witness for C4: the "??" rule applied at a concrete state and line. -/
theorem worktree_line_classification_witness :
    pyStartswith "??" "?? new.txt" = true ∧
    updateWorktreeLine ⟨0, 1, 2, 3, false⟩ "?? new.txt" = ⟨1, 1, 2, 3, true⟩ :=
  ⟨by decide,
   (worktree_line_classification ⟨0, 1, 2, 3, false⟩ "?? new.txt").1 (by decide)⟩

/-- C5: in the remote-status computation starting from the zero counters of
`Status.__init__`, a non-zero return code of either `git rev-list` query
(in particular when no upstream is configured) leaves the corresponding
counter at zero without raising (the queries run with `check=False`),
while a zero return code sets it to the number of output lines. -/
theorem remote_status_upstream_counts (rcA rcB : Int) (outA outB : String) :
    (rcA ≠ 0 → (update_remote_status 0 0 rcA outA rcB outB).1 = 0) ∧
    (rcB ≠ 0 → (update_remote_status 0 0 rcA outA rcB outB).2 = 0) ∧
    (rcA = 0 →
      (update_remote_status 0 0 rcA outA rcB outB).1 = (pySplitlines outA).length) ∧
    (rcB = 0 →
      (update_remote_status 0 0 rcA outA rcB outB).2 = (pySplitlines outB).length) := by
  refine ⟨?_, ?_, ?_, ?_⟩ <;> intro h <;> simp [update_remote_status, h]

/-- Witness for C5: a failing ahead-query (no upstream) leaves `ahead = 0`
while a succeeding behind-query counts its two output lines. -/
theorem remote_status_upstream_counts_witness :
    ((128 : Int) ≠ 0 ∧ (update_remote_status 0 0 128 "x" 0 "s1\ns2").1 = 0) ∧
    ((0 : Int) = 0 ∧ (update_remote_status 0 0 128 "x" 0 "s1\ns2").2 = 2) :=
  ⟨⟨by decide, (remote_status_upstream_counts 128 0 "x" "s1\ns2").1 (by decide)⟩,
   ⟨rfl, ((remote_status_upstream_counts 128 0 "x" "s1\ns2").2.2.2 rfl).trans (by decide)⟩⟩

/-- A list of length two is exactly a two-element list. -/
theorem list_length_two {α : Type} {l : List α} (h : l.length = 2) :
    ∃ a b, l = [a, b] := by
  match l, h with
  | [a, b], _ => exact ⟨a, b, rfl⟩

/-- The candidate loop returns the first candidate whose second
slash-component equals the target branch, provided every candidate splits
into exactly two parts; `NoTrackingRef` when none matches. -/
theorem pickTrackingRef_eq_find (branch : String) (cs : List String)
    (h : ∀ c ∈ cs, (pySplit '/' c).length = 2) :
    pickTrackingRef branch cs =
      match cs.find? (fun c => (pySplit '/' c).getD 1 "" == branch) with
      | some c => .ok c
      | none => .error .noTrackingRef := by
  induction cs with
  | nil => rfl
  | cons c rest ih =>
      obtain ⟨a, b, hab⟩ := list_length_two (h c (List.mem_cons_self c rest))
      have hrest := ih (fun x hx => h x (List.mem_cons_of_mem c hx))
      rw [List.find?_cons]
      by_cases hb : branch = b
      · have : ((pySplit '/' c).getD 1 "" == branch) = true := by
          simp [hab, hb]
        simp only [this, cond_true]
        simp [pickTrackingRef, hab, hb]
      · have : ((pySplit '/' c).getD 1 "" == branch) = false := by
          simp [hab]
          exact fun hx => hb hx.symm
        simp only [this, cond_false]
        simp only [pickTrackingRef, hab]
        rw [if_neg hb]
        exact hrest

/-- C3: when no upstream tracking ref is configured for the checked-out
branch, `reset_repo` enumerates the remote branches containing the target
sha1 (`guess_tracking_ref`, assuming its `git branch -r --contains` query
succeeded) and selects the first candidate whose branch-name component
after the remote-name prefix equals the target branch name; if no
candidate matches, it fails with `NoTrackingRef`.  The returned ref is the
one subsequently fast-forward-merged (`git merge --ff-only`, git.py 249).
The hypothesis `h2` restricts to candidates that split into exactly two
slash-separated parts (the complementary behaviour is claim C10). -/
theorem reset_tracking_guess_first_match (branch : String) (out : String)
    (h2 : ∀ c ∈ (pySplitlines out).map pyStrip, (pySplit '/' c).length = 2) :
    reset_repo_tracking branch none 0 out =
      match ((pySplitlines out).map pyStrip).find?
          (fun c => (pySplit '/' c).getD 1 "" == branch) with
      | some c => .ok c
      | none => .error .noTrackingRef := by
  unfold reset_repo_tracking guess_tracking_ref
  simp only [if_pos rfl]
  exact pickTrackingRef_eq_find branch _ h2

/-- Witness for C3: with candidates `origin/dev` and `origin/master`, the
first candidate whose component after the remote name is `master` is
`origin/master`; with no matching candidate, `NoTrackingRef`. -/
theorem reset_tracking_guess_first_match_witness :
    ((∀ c ∈ (pySplitlines "  origin/dev\n  origin/master").map pyStrip,
        (pySplit '/' c).length = 2) ∧
      reset_repo_tracking "master" none 0 "  origin/dev\n  origin/master" =
        .ok "origin/master") ∧
    ((∀ c ∈ (pySplitlines "  origin/dev").map pyStrip,
        (pySplit '/' c).length = 2) ∧
      reset_repo_tracking "master" none 0 "  origin/dev" =
        .error .noTrackingRef) :=
  ⟨⟨by decide,
    (reset_tracking_guess_first_match "master" "  origin/dev\n  origin/master"
      (by decide)).trans (by decide)⟩,
   ⟨by decide,
    (reset_tracking_guess_first_match "master" "  origin/dev"
      (by decide)).trans (by decide)⟩⟩

/-- C10: a candidate reached by the guess loop whose split on '/' does not
yield exactly two parts — a branch name itself containing a slash, or the
symbolic-ref line `origin/HEAD -> origin/master` — makes the tuple
unpacking raise an uncaught `ValueError`: the loop neither skips the
candidate nor falls through to `NoTrackingRef`, even when a matching
candidate follows it in the list. -/
theorem reset_tracking_multislash_valueError (branch c : String)
    (pre post : List String)
    (hpre : ∀ x ∈ pre,
      (pySplit '/' x).length = 2 ∧ (pySplit '/' x).getD 1 "" ≠ branch)
    (hc : (pySplit '/' c).length ≠ 2) :
    pickTrackingRef branch (pre ++ c :: post) = .error .valueError := by
  induction pre with
  | nil =>
      simp only [List.nil_append]
      unfold pickTrackingRef
      match hs : pySplit '/' c with
      | [] => rfl
      | [a] => rfl
      | [a, b] => exact absurd (by simp [hs]) hc
      | a :: b :: d :: t => rfl
  | cons x pre' ih =>
      obtain ⟨hlen, hne⟩ := hpre x (List.mem_cons_self x pre')
      obtain ⟨a, b, hab⟩ := list_length_two hlen
      have hb : branch ≠ b := by
        intro hx
        exact hne (by simp [hab, hx])
      simp only [List.cons_append]
      simp only [pickTrackingRef, hab]
      rw [if_neg hb]
      exact ih (fun y hy => hpre y (List.mem_cons_of_mem x hy))

/-- Witness for C10: both cited shapes — the symbolic-ref line
`origin/HEAD -> origin/master` and a slash-carrying branch name
`origin/feature/x` — raise `ValueError` even though the matching candidate
`origin/master` appears later in the list. -/
theorem reset_tracking_multislash_valueError_witness :
    (((pySplit '/' "origin/HEAD -> origin/master").length ≠ 2) ∧
      pickTrackingRef "master"
        (["origin/dev"] ++ "origin/HEAD -> origin/master" :: ["origin/master"]) =
        .error .valueError) ∧
    (((pySplit '/' "origin/feature/x").length ≠ 2) ∧
      pickTrackingRef "master"
        ([] ++ "origin/feature/x" :: ["origin/master"]) = .error .valueError) :=
  ⟨⟨by decide,
    reset_tracking_multislash_valueError "master" "origin/HEAD -> origin/master"
      ["origin/dev"] ["origin/master"] (by decide) (by decide)⟩,
   ⟨by decide,
    reset_tracking_multislash_valueError "master" "origin/feature/x"
      [] ["origin/master"] (by decide) (by decide)⟩⟩

/-- C7: for every repository visited by the snapshot generator (and not
already discarded by the no-commit rule, hypothesis `hsha`): zero
configured remotes discard the entry (`none`, a per-repository warning,
not a fatal error — the loop `continue`s); exactly one remote emits the
single-`url` shorthand (a `url` field, empty `remotes`); more than one
remote emits the explicit `remotes` list of name/url records with no
`url` field. -/
theorem snapshot_remotes_forms (name branchOut : String) (withSha1 : Bool)
    (sha1Result : Except Unit String) (remoteOut : String)
    (urlOf : String → String)
    (hsha : withSha1 = false ∨ ∃ s, sha1Result = .ok s) :
    ((pySplit '\n' remoteOut).filter (fun r => r ≠ "") = [] →
      snapshot_entry name branchOut withSha1 sha1Result remoteOut urlOf = none) ∧
    (∀ k v,
      ((pySplit '\n' remoteOut).filter (fun r => r ≠ "")).foldl
          (fun d r => setdefaultList d r (urlOf r)) [] = [(k, v)] →
      ∃ sh, snapshot_entry name branchOut withSha1 sha1Result remoteOut urlOf =
        some ⟨name, branchOut, sh, some v, []⟩) ∧
    (∀ d, ((pySplit '\n' remoteOut).filter (fun r => r ≠ "")).foldl
          (fun d r => setdefaultList d r (urlOf r)) [] = d →
      2 ≤ d.length →
      ∃ sh, snapshot_entry name branchOut withSha1 sha1Result remoteOut urlOf =
        some ⟨name, branchOut, sh, none, d.map (fun p => ⟨p.1, p.2⟩)⟩) := by
  have hstep : ∃ sh,
      (if withSha1 then
        match sha1Result with
        | .error _ => none
        | .ok s => some (some s)
      else some none) = some sh := by
    rcases hsha with h | ⟨s, h⟩
    · exact ⟨none, by simp [h]⟩
    · cases withSha1 <;> simp [h]
  obtain ⟨sh, hsh⟩ := hstep
  refine ⟨?_, ?_, ?_⟩
  · intro hnil
    simp only [snapshot_entry, hsh, hnil, List.foldl_nil]
    rfl
  · intro k v hd
    refine ⟨sh, ?_⟩
    simp only [snapshot_entry, hsh, hd]
    rfl
  · intro d hd h2
    refine ⟨sh, ?_⟩
    have hne : ¬ d = [] := by
      intro h; subst h; simp at h2
    have hlen : ¬ d.length = 1 := by omega
    simp only [snapshot_entry, hsh, hd]
    rw [if_neg hne, if_neg hlen]

/-- Witness for C7: with the sha1 option off, a two-remote repository gets
an explicit remotes list and no url field. -/
theorem snapshot_remotes_forms_witness :
    (false = false ∨ ∃ s, (Except.ok "abc" : Except Unit String) = .ok s) ∧
    (2 ≤ ([("origin", "u1"), ("backup", "u2")] : List (String × String)).length) ∧
    (∃ sh, snapshot_entry "foo/bar" "master" false (.ok "abc") "origin\nbackup"
        (fun r => if r = "origin" then "u1" else "u2") =
      some ⟨"foo/bar", "master", sh, none,
        [⟨"origin", "u1"⟩, ⟨"backup", "u2"⟩]⟩) :=
  ⟨Or.inl rfl, by decide,
   (snapshot_remotes_forms "foo/bar" "master" false (.ok "abc") "origin\nbackup"
      (fun r => if r = "origin" then "u1" else "u2") (Or.inl rfl)).2.2
     [("origin", "u1"), ("backup", "u2")] (by decide) (by decide)⟩

/-- C8: a snapshot creation request whose destination file already exists
is rejected with the explanatory error naming the existing path — the
snapshot is not written (`create_snapshot_cmd` short-circuits before the
write, so its write list is empty) — unless `force` is given, in which
case the existing file is overwritten (the write to `yml_path` proceeds
unconditionally). -/
theorem snapshot_overwrite_guard :
    (∀ p, create_snapshot_cmd true false p =
      .error ("Manifest already found in " ++ p ++ ". Use -f to force creation.")) ∧
    (∀ existed p, create_snapshot_cmd existed true p = .ok [p]) := by
  constructor
  · intro p; rfl
  · intro existed p; cases existed <;> rfl

/-- Assigning a fresh key to the ordered dict appends it. -/
theorem odInsert_fresh (m : List (String × α)) (k : String) (v : α)
    (h : ∀ p ∈ m, p.1 ≠ k) : odInsert m k v = m ++ [(k, v)] := by
  have hany : m.any (fun p => p.1 == k) = false := by
    rw [List.any_eq_false]
    intro p hp
    simpa using h p hp
  simp [odInsert, hany]

/-- One collector step on a dict not yet holding the repository's src
appends that src with its outcome. -/
theorem collector_process_fresh {E A : Type} (pathExists : Repo → Bool)
    (op : Repo → Except E A) (acc : List (String × Outcome E A)) (r : Repo)
    (h : ∀ p ∈ acc, p.1 ≠ r.src) :
    collector_process pathExists op acc r =
      acc ++ [(r.src, collectorOutcome pathExists op r)] := by
  unfold collector_process collectorOutcome
  cases hpe : pathExists r
  · simpa using odInsert_fresh acc r.src _ h
  · cases hop : op r
    · simpa using odInsert_fresh acc r.src _ h
    · simpa using odInsert_fresh acc r.src _ h

/-- The collector fold over repositories with pairwise-distinct srcs
appends one entry per repository, in input order. -/
theorem run_sequence_go {E A : Type} (pathExists : Repo → Bool)
    (op : Repo → Except E A) (repos : List Repo) :
    ∀ acc : List (String × Outcome E A),
      (∀ r ∈ repos, ∀ p ∈ acc, p.1 ≠ r.src) →
      (repos.map Repo.src).Nodup →
      repos.foldl (collector_process pathExists op) acc =
        acc ++ repos.map (fun r => (r.src, collectorOutcome pathExists op r)) := by
  induction repos with
  | nil => intro acc _ _; simp
  | cons r rest ih =>
      intro acc hdisj hnd
      have hstep := collector_process_fresh pathExists op acc r
        (fun p hp => hdisj r (List.mem_cons_self r rest) p hp)
      have hnotin : r.src ∉ rest.map Repo.src := by
        have := hnd
        simp only [List.map_cons, List.nodup_cons] at this
        exact this.1
      have hdisj' : ∀ x ∈ rest, ∀ p ∈ acc ++ [(r.src, collectorOutcome pathExists op r)],
          p.1 ≠ x.src := by
        intro x hx p hp
        rcases List.mem_append.1 hp with hpa | hpl
        · exact hdisj x (List.mem_cons_of_mem r hx) p hpa
        · have hpeq : p = (r.src, collectorOutcome pathExists op r) := by
            simpa using hpl
          subst hpeq
          intro hcontra
          have hrx : r.src = x.src := hcontra
          exact hnotin (by rw [hrx]; exact List.mem_map_of_mem Repo.src hx)
      have hnd' : (rest.map Repo.src).Nodup := by
        simp only [List.map_cons, List.nodup_cons] at hnd
        exact hnd.2
      calc (r :: rest).foldl (collector_process pathExists op) acc
          = rest.foldl (collector_process pathExists op)
              (acc ++ [(r.src, collectorOutcome pathExists op r)]) := by
            simp [List.foldl_cons, hstep]
        _ = acc ++ [(r.src, collectorOutcome pathExists op r)] ++
              rest.map (fun x => (x.src, collectorOutcome pathExists op x)) :=
            ih _ hdisj' hnd'
        _ = acc ++ (r :: rest).map (fun x => (x.src, collectorOutcome pathExists op x)) := by
            simp

/-- Looking up a repository's src in the outcome map built from a
nodup-src repository list yields that repository's outcome. -/
theorem assoc_lookup_map {β : Type} (g : Repo → β) (repos : List Repo)
    (r : Repo) (hr : r ∈ repos) (hnd : (repos.map Repo.src).Nodup) :
    (repos.map (fun x => (x.src, g x))).lookup r.src = some (g r) := by
  induction repos with
  | nil => cases hr
  | cons x rest ih =>
      simp only [List.map_cons, List.nodup_cons] at hnd
      rcases List.mem_cons.1 hr with heq | hmem
      · subst heq
        simp [List.lookup]
      · have hne : (r.src == x.src) = false := by
          rw [beq_eq_false_iff_ne]
          intro hcontra
          exact hnd.1 (by rw [← hcontra]; exact List.mem_map_of_mem Repo.src hmem)
        simp only [List.map_cons, List.lookup, hne]
        exact ih hmem hnd.2

/-- C1: the batch collectors (status and reset) produce, for an input list
of N distinct-src repositories, an outcome map with exactly N entries,
keyed by each repository's src in input order; a repository whose working
copy does not exist on disk is recorded as `MissingRepo` (for every
operation `op` alike — the operation is not invoked); an exception raised
by the operation is recorded as that repository's outcome while the
remaining repositories are still processed (they keep their own map
entries); an empty input yields the empty map. -/
theorem batch_collector_outcomes {E A : Type} (pathExists : Repo → Bool)
    (op : Repo → Except E A) (repos : List Repo)
    (hnd : (repos.map Repo.src).Nodup) :
    run_sequence pathExists op repos =
      repos.map (fun r => (r.src, collectorOutcome pathExists op r)) ∧
    (run_sequence pathExists op repos).length = repos.length ∧
    (run_sequence pathExists op repos).map Prod.fst = repos.map Repo.src ∧
    (∀ r ∈ repos, pathExists r = false →
      (run_sequence pathExists op repos).lookup r.src =
        some (Outcome.missingRepo r.src)) ∧
    (∀ r ∈ repos, ∀ e, pathExists r = true → op r = .error e →
      (run_sequence pathExists op repos).lookup r.src = some (Outcome.exn e)) ∧
    run_sequence pathExists op ([] : List Repo) = [] := by
  have hmain : run_sequence pathExists op repos =
      repos.map (fun r => (r.src, collectorOutcome pathExists op r)) := by
    simpa using run_sequence_go pathExists op repos [] (by simp) hnd
  refine ⟨hmain, ?_, ?_, ?_, ?_, rfl⟩
  · rw [hmain]; simp
  · rw [hmain]; simp
  · intro r hr hpe
    rw [hmain]
    have := assoc_lookup_map (collectorOutcome pathExists op) repos r hr hnd
    rw [this]
    simp [collectorOutcome, hpe]
  · intro r hr e hpe hop
    rw [hmain]
    have := assoc_lookup_map (collectorOutcome pathExists op) repos r hr hnd
    rw [this]
    simp [collectorOutcome, hpe, hop]

/-- Witness for C1: three repositories — one fine, one missing on disk,
one whose operation raises — produce three attributed outcomes in input
order. -/
theorem batch_collector_outcomes_witness :
    (([⟨"a", "m", none, none, []⟩, ⟨"b", "m", none, none, []⟩,
       ⟨"c", "m", none, none, []⟩] : List Repo).map Repo.src).Nodup ∧
    run_sequence (fun r => r.src != "b")
      (fun r => if r.src = "c" then .error "boom" else .ok r.branch)
      [⟨"a", "m", none, none, []⟩, ⟨"b", "m", none, none, []⟩,
       ⟨"c", "m", none, none, []⟩] =
      [("a", .ok "m"), ("b", .missingRepo "b"), ("c", .exn "boom")] :=
  ⟨by decide,
   (batch_collector_outcomes (fun r => r.src != "b")
      (fun r => if r.src = "c" then .error "boom" else .ok r.branch)
      [⟨"a", "m", none, none, []⟩, ⟨"b", "m", none, none, []⟩,
       ⟨"c", "m", none, none, []⟩] (by decide)).1.trans (by decide)⟩

/-- One invalid repo config makes the whole validation pass fail. -/
theorem validateAll_error_of_mem (cfgs : List RepoConfig) (cfg : RepoConfig)
    (hmem : cfg ∈ cfgs) (hbad : validate_repo cfg ≠ .ok ()) :
    ∃ e, validateAll cfgs = .error e := by
  induction cfgs with
  | nil => cases hmem
  | cons c rest ih =>
      cases hv : validate_repo c with
      | error e => exact ⟨e, by simp [validateAll, hv]⟩
      | ok u =>
          rcases List.mem_cons.1 hmem with heq | hmem'
          · subst heq
            cases u
            exact absurd hv hbad
          · obtain ⟨e, he⟩ := ih hmem'
            exact ⟨e, by cases u; simp [validateAll, hv, he]⟩

/-- C6: a repository config passes `validate_repo` exactly when exactly
one of a (truthy) `url` and a non-empty `remotes` list is given — both
given raises the "cannot contain both" schema error, neither given raises
the "should contain either" schema error — and one invalid config aborts
the whole manifest load before any `Repo` is built (the schema pass runs
before `Manifest.load`).  In line with the source's `data.get(...)`
truthiness tests, "present" means a non-`None`, non-empty value. -/
theorem repo_config_url_remotes_validation :
    (∀ cfg : RepoConfig, validate_repo cfg = .ok () ↔
      pyTruthyStr cfg.url ≠ pyTruthyList cfg.remotes) ∧
    (∀ cfg : RepoConfig,
      pyTruthyStr cfg.url = true → pyTruthyList cfg.remotes = true →
      validate_repo cfg = .error .bothUrlAndRemotes) ∧
    (∀ cfg : RepoConfig,
      pyTruthyStr cfg.url = false → pyTruthyList cfg.remotes = false →
      validate_repo cfg = .error .neitherUrlNorRemotes) ∧
    (∀ (repoCfgs : List RepoConfig) (groupCfgs : List GroupConfig)
        (cfg : RepoConfig), cfg ∈ repoCfgs → validate_repo cfg ≠ .ok () →
      ∃ e, load_manifest repoCfgs groupCfgs = .error e) := by
  refine ⟨?_, ?_, ?_, ?_⟩
  · intro cfg
    cases hu : pyTruthyStr cfg.url <;> cases hr : pyTruthyList cfg.remotes <;>
      simp [validate_repo, hu, hr]
  · intro cfg hu hr
    simp [validate_repo, hu, hr]
  · intro cfg hu hr
    simp [validate_repo, hu, hr]
  · intro repoCfgs groupCfgs cfg hmem hbad
    obtain ⟨e, he⟩ := validateAll_error_of_mem repoCfgs cfg hmem hbad
    exact ⟨e, by simp [load_manifest, he]⟩

/-- Witness for C6: a config with both a url and a remote is rejected with
the "both" error, and its presence aborts a whole load. -/
theorem repo_config_url_remotes_validation_witness :
    (pyTruthyStr (some "git@ex:u") = true ∧
      pyTruthyList (some [(⟨"origin", "git@ex:u"⟩ : Remote)]) = true ∧
      validate_repo ⟨"s", none, none, none, some "git@ex:u",
        some [⟨"origin", "git@ex:u"⟩]⟩ = .error .bothUrlAndRemotes) ∧
    (∃ e, load_manifest
        [⟨"ok", none, none, none, some "u", none⟩,
         ⟨"s", none, none, none, some "git@ex:u", some [⟨"origin", "git@ex:u"⟩]⟩]
        [] = .error e) :=
  ⟨⟨by decide, by decide,
    repo_config_url_remotes_validation.2.1
      ⟨"s", none, none, none, some "git@ex:u", some [⟨"origin", "git@ex:u"⟩]⟩
      (by decide) (by decide)⟩,
   repo_config_url_remotes_validation.2.2.2
      [⟨"ok", none, none, none, some "u", none⟩,
       ⟨"s", none, none, none, some "git@ex:u", some [⟨"origin", "git@ex:u"⟩]⟩]
      []
      ⟨"s", none, none, none, some "git@ex:u", some [⟨"origin", "git@ex:u"⟩]⟩
      (by decide) (by decide)⟩

/-- Totality of the lexicographic comparison. -/
theorem lexLeChars_total (as bs : List Char) :
    lexLeChars as bs = true ∨ lexLeChars bs as = true := by
  induction as generalizing bs with
  | nil => left; rfl
  | cons a as ih =>
      cases bs with
      | nil => right; rfl
      | cons b bs' =>
          rcases Nat.lt_trichotomy a.toNat b.toNat with h | h | h
          · left; simp [lexLeChars, h]
          · rcases ih bs' with h2 | h2
            · left; simpa [lexLeChars, h] using h2
            · right; simpa [lexLeChars, h] using h2
          · right; simp [lexLeChars, h]

/-- Transitivity of the lexicographic comparison. -/
theorem lexLeChars_trans : ∀ (as bs cs : List Char),
    lexLeChars as bs = true → lexLeChars bs cs = true →
    lexLeChars as cs = true := by
  intro as
  induction as with
  | nil => intro bs cs _ _; rfl
  | cons a as ih =>
      intro bs cs hab hbc
      cases bs with
      | nil => simp [lexLeChars] at hab
      | cons b bs' =>
          cases cs with
          | nil => simp [lexLeChars] at hbc
          | cons c cs' =>
              rcases Nat.lt_trichotomy a.toNat b.toNat with h1 | h1 | h1
              · rcases Nat.lt_trichotomy b.toNat c.toNat with h2 | h2 | h2
                · have : a.toNat < c.toNat := by omega
                  simp [lexLeChars, this]
                · have : a.toNat < c.toNat := by omega
                  simp [lexLeChars, this]
                · have hn1 : ¬ b.toNat < c.toNat := by omega
                  have hn2 : ¬ b.toNat = c.toNat := by omega
                  simp [lexLeChars, hn1, hn2] at hbc
              · have hab' : lexLeChars as bs' = true := by
                  simpa [lexLeChars, h1] using hab
                rcases Nat.lt_trichotomy b.toNat c.toNat with h2 | h2 | h2
                · have : a.toNat < c.toNat := by omega
                  simp [lexLeChars, this]
                · have hbc' : lexLeChars bs' cs' = true := by
                    simpa [lexLeChars, h2] using hbc
                  have heq : a.toNat = c.toNat := by omega
                  have hnlt : ¬ a.toNat < c.toNat := by omega
                  simp [lexLeChars, hnlt, heq]
                  exact ih bs' cs' hab' hbc'
                · have hn1 : ¬ b.toNat < c.toNat := by omega
                  have hn2 : ¬ b.toNat = c.toNat := by omega
                  simp [lexLeChars, hn1, hn2] at hbc
              · have hn1 : ¬ a.toNat < b.toNat := by omega
                have hn2 : ¬ a.toNat = b.toNat := by omega
                simp [lexLeChars, hn1, hn2] at hab

instance : IsTotal String srcLe :=
  ⟨fun a b => lexLeChars_total a.data b.data⟩

instance : IsTrans String srcLe :=
  ⟨fun a b c hab hbc => lexLeChars_trans a.data b.data c.data hab hbc⟩

/-- A successful `get_repo` returns a registered repository carrying
exactly the requested src. -/
theorem get_repo_ok (m : Manifest) (src : String) (r : Repo)
    (h : m.get_repo src = .ok r) : r ∈ m.repos ∧ r.src = src := by
  unfold Manifest.get_repo at h
  cases hf : m.repos.find? (fun x => x.src == src) with
  | none => rw [hf] at h; cases h
  | some x =>
      rw [hf] at h
      cases h
      refine ⟨List.mem_of_find?_eq_some hf, ?_⟩
      have := List.find?_some hf
      simpa using this

/-- A successful lookup loop returns repositories carrying exactly the
requested srcs, all registered in the manifest. -/
theorem mapGetRepos_ok (m : Manifest) :
    ∀ (srcs : List String) (l : List Repo), m.mapGetRepos srcs = .ok l →
      l.map Repo.src = srcs ∧ ∀ r ∈ l, r ∈ m.repos := by
  intro srcs
  induction srcs with
  | nil =>
      intro l h
      simp only [Manifest.mapGetRepos] at h
      cases h
      simp
  | cons s rest ih =>
      intro l h
      simp only [Manifest.mapGetRepos] at h
      cases hr : m.get_repo s with
      | error e => rw [hr] at h; cases h
      | ok r =>
          rw [hr] at h
          cases hrest : m.mapGetRepos rest with
          | error e => rw [hrest] at h; cases h
          | ok rs =>
              rw [hrest] at h
              cases h
              obtain ⟨hmap, hmem⟩ := ih rs hrest
              obtain ⟨hrmem, hrsrc⟩ := get_repo_ok m s r hr
              refine ⟨by simp [hmap, hrsrc], ?_⟩
              intro x hx
              rcases List.mem_cons.1 hx with heq | hx'
              · subst heq; exact hrmem
              · exact hmem x hx'

/-- C2: `get_repos` selection behaviour — `all_ = true` returns every
repository in insertion order; a non-empty `groups` list returns exactly
the repositories whose src lies in the resolved union of those groups,
sorted lexicographically by src; with no groups given, a group literally
named "default" makes the call behave as `groups = ["default"]`, and
otherwise every repository is returned in insertion order. -/
theorem manifest_get_repos_selection (m : Manifest) :
    (∀ groups, m.get_repos groups true = .ok m.repos) ∧
    (∀ gs l, gs ≠ [] → m.get_repos (some gs) false = .ok l →
      ∃ els, m.group_list.get_elements gs = .ok els ∧
        (∀ r ∈ l, r ∈ m.repos ∧ r.src ∈ els) ∧
        (∀ src ∈ els, ∃ r ∈ l, r.src = src) ∧
        l.Pairwise (fun a b => srcLe a.src b.src)) ∧
    (m.has_default_group = true →
      m.get_repos none false = m.get_repos (some ["default"]) false ∧
      m.get_repos (some []) false = m.get_repos (some ["default"]) false) ∧
    (m.has_default_group = false →
      m.get_repos none false = .ok m.repos ∧
      m.get_repos (some []) false = .ok m.repos) := by
  refine ⟨?_, ?_, ?_, ?_⟩
  · intro groups
    simp [Manifest.get_repos]
  · intro gs l hne hok
    have hsel : m.get_repos_in_groups gs = .ok l := by
      simpa [Manifest.get_repos, hne] using hok
    unfold Manifest.get_repos_in_groups at hsel
    cases hels : m.group_list.get_elements gs with
    | error e => rw [hels] at hsel; cases hsel
    | ok els =>
        rw [hels] at hsel
        obtain ⟨hmap, hmem⟩ := mapGetRepos_ok m _ l hsel
        have hperm : List.Perm (els.insertionSort srcLe) els :=
          List.perm_insertionSort srcLe els
        refine ⟨els, rfl, ?_, ?_, ?_⟩
        · intro r hr
          refine ⟨hmem r hr, ?_⟩
          have : r.src ∈ l.map Repo.src := List.mem_map_of_mem Repo.src hr
          rw [hmap] at this
          exact hperm.mem_iff.1 this
        · intro src hsrc
          have : src ∈ l.map Repo.src := by
            rw [hmap]
            exact hperm.mem_iff.2 hsrc
          obtain ⟨r, hr, hrs⟩ := List.mem_map.1 this
          exact ⟨r, hr, hrs⟩
        · have hsorted : (els.insertionSort srcLe).Pairwise srcLe :=
            List.sorted_insertionSort srcLe els
          rw [← hmap] at hsorted
          exact (List.pairwise_map).1 hsorted
  · intro h
    constructor
    · simp [Manifest.get_repos, h]
    · simp [Manifest.get_repos, h]
  · intro h
    constructor
    · simp [Manifest.get_repos, h]
    · simp [Manifest.get_repos, h]

/-- Witness for C2: a two-repo manifest with a nested group `all` whose
resolution is `{bar, foo}`; selecting it returns the two repositories
sorted by src even though the manifest stores them in the other order. -/
theorem manifest_get_repos_selection_witness :
    ((["all"] : List String) ≠ [] ∧
      (Manifest.mk
        [⟨"foo", "master", none, none, []⟩, ⟨"bar", "master", none, none, []⟩]
        ⟨["foo", "bar"], [⟨"all", ["foo"], ["other"]⟩, ⟨"other", ["bar"], []⟩]⟩).get_repos
        (some ["all"]) false =
        .ok [⟨"bar", "master", none, none, []⟩, ⟨"foo", "master", none, none, []⟩]) ∧
    (∃ els,
      (Manifest.mk
        [⟨"foo", "master", none, none, []⟩, ⟨"bar", "master", none, none, []⟩]
        ⟨["foo", "bar"], [⟨"all", ["foo"], ["other"]⟩, ⟨"other", ["bar"], []⟩]⟩).group_list.get_elements
        ["all"] = .ok els ∧
      (∀ r ∈ [(⟨"bar", "master", none, none, []⟩ : Repo),
              ⟨"foo", "master", none, none, []⟩],
        r ∈ (Manifest.mk
          [⟨"foo", "master", none, none, []⟩, ⟨"bar", "master", none, none, []⟩]
          ⟨["foo", "bar"], [⟨"all", ["foo"], ["other"]⟩, ⟨"other", ["bar"], []⟩]⟩).repos ∧
          r.src ∈ els) ∧
      (∀ src ∈ els, ∃ r ∈ [(⟨"bar", "master", none, none, []⟩ : Repo),
              ⟨"foo", "master", none, none, []⟩], r.src = src) ∧
      List.Pairwise (fun a b => srcLe a.src b.src)
        [(⟨"bar", "master", none, none, []⟩ : Repo),
         ⟨"foo", "master", none, none, []⟩]) :=
  ⟨⟨by decide, by decide⟩,
   (manifest_get_repos_selection
      (Manifest.mk
        [⟨"foo", "master", none, none, []⟩, ⟨"bar", "master", none, none, []⟩]
        ⟨["foo", "bar"], [⟨"all", ["foo"], ["other"]⟩, ⟨"other", ["bar"], []⟩]⟩)).2.1
      ["all"]
      [⟨"bar", "master", none, none, []⟩, ⟨"foo", "master", none, none, []⟩]
      (by decide) (by decide)⟩

/-- A successful group lookup returns a registered group with the
requested name. -/
theorem get_group_mem {gl : GroupList} {name : String} {g : Group}
    (h : gl.get_group name = some g) : g ∈ gl.groups ∧ g.name = name := by
  unfold GroupList.get_group at h
  refine ⟨List.mem_of_find?_eq_some h, ?_⟩
  have := List.find?_some h
  simpa using this

/-- A name is registered exactly when its lookup succeeds. -/
theorem mem_groupNames_iff {gl : GroupList} {name : String} :
    name ∈ groupNames gl ↔ ∃ g, gl.get_group name = some g := by
  constructor
  · intro h
    obtain ⟨g, hg, hname⟩ := List.mem_map.1 h
    have hsome : (gl.groups.find? (fun x => x.name == name)).isSome := by
      rw [List.find?_isSome]
      exact ⟨g, hg, by simp [hname]⟩
    obtain ⟨g', hg'⟩ := Option.isSome_iff_exists.1 hsome
    exact ⟨g', hg'⟩
  · rintro ⟨g, hg⟩
    obtain ⟨hmem, hname⟩ := get_group_mem hg
    exact hname ▸ List.mem_map_of_mem Group.name hmem

/-- Exhausted fuel reports `depthExceeded` (shown unreachable below). -/
theorem resolveGroupAux_zero (gl : GroupList) (path : List String)
    (name : String) :
    resolveGroupAux gl 0 path name = .error .depthExceeded := rfl

/-- Unfolding of one resolution step. -/
theorem resolveGroupAux_succ (gl : GroupList) (fuel : Nat) (path : List String)
    (name : String) :
    resolveGroupAux gl (fuel + 1) path name =
      (if name ∈ path then .error (.cyclicGroupReference name)
      else
        match gl.get_group name with
        | none => .error (.unknownGroup name)
        | some g =>
            match resolveIncludesWith (resolveGroupAux gl fuel (name :: path))
                g.includes with
            | .error e => .error e
            | .ok s => .ok (g.elements ∪ s)) := rfl

/-- A successful include fold resolves every member. -/
theorem riw_ok_of_mem {f : String → Except Err (List String)} :
    ∀ {l : List String} {s : List String},
      resolveIncludesWith f l = .ok s → ∀ inc ∈ l, ∃ si, f inc = .ok si := by
  intro l
  induction l with
  | nil => intro s _ inc hinc; cases hinc
  | cons a rest ih =>
      intro s h inc hinc
      simp only [resolveIncludesWith] at h
      cases hfa : f a with
      | error e => rw [hfa] at h; cases h
      | ok sa =>
          rw [hfa] at h
          cases hrest : resolveIncludesWith f rest with
          | error e => rw [hrest] at h; cases h
          | ok t =>
              rcases List.mem_cons.1 hinc with heq | hmem
              · exact ⟨sa, heq ▸ hfa⟩
              · exact ih hrest inc hmem

/-- Membership in a successful include fold: exactly the members of some
successfully resolved include. -/
theorem riw_mem_ok {f : String → Except Err (List String)} :
    ∀ {l : List String} {s : List String},
      resolveIncludesWith f l = .ok s →
      ∀ x, x ∈ s ↔ ∃ inc ∈ l, ∃ si, f inc = .ok si ∧ x ∈ si := by
  intro l
  induction l with
  | nil =>
      intro s h x
      simp only [resolveIncludesWith] at h
      cases h
      simp
  | cons a rest ih =>
      intro s h x
      simp only [resolveIncludesWith] at h
      cases hfa : f a with
      | error e => rw [hfa] at h; cases h
      | ok sa =>
          rw [hfa] at h
          cases hrest : resolveIncludesWith f rest with
          | error e => rw [hrest] at h; cases h
          | ok t =>
              rw [hrest] at h
              cases h
              rw [List.mem_union_iff]
              constructor
              · rintro (hx | hx)
                · exact ⟨a, List.mem_cons_self a rest, sa, hfa, hx⟩
                · obtain ⟨inc, hinc, si, hsi, hxi⟩ := (ih hrest x).1 hx
                  exact ⟨inc, List.mem_cons_of_mem a hinc, si, hsi, hxi⟩
              · rintro ⟨inc, hinc, si, hsi, hxi⟩
                rcases List.mem_cons.1 hinc with heq | hmem
                · subst heq
                  rw [hfa] at hsi
                  cases hsi
                  exact Or.inl hxi
                · exact Or.inr ((ih hrest x).2 ⟨inc, hmem, si, hsi, hxi⟩)

/-- If every member resolves, the include fold succeeds. -/
theorem riw_ok_of_all {f : String → Except Err (List String)} :
    ∀ {l : List String}, (∀ inc ∈ l, ∃ si, f inc = .ok si) →
      ∃ s, resolveIncludesWith f l = .ok s := by
  intro l
  induction l with
  | nil => intro _; exact ⟨[], rfl⟩
  | cons a rest ih =>
      intro h
      obtain ⟨sa, hsa⟩ := h a (List.mem_cons_self a rest)
      obtain ⟨t, ht⟩ := ih (fun inc hinc => h inc (List.mem_cons_of_mem a hinc))
      exact ⟨sa ∪ t, by simp only [resolveIncludesWith, hsa, ht]⟩

/-- If every member resolves without duplicates, so does the fold. -/
theorem riw_nodup {f : String → Except Err (List String)} :
    ∀ {l : List String} {s : List String},
      resolveIncludesWith f l = .ok s → s.Nodup := by
  intro l
  induction l with
  | nil => intro s h; cases h; exact List.nodup_nil
  | cons a rest ih =>
      intro s h
      simp only [resolveIncludesWith] at h
      cases hfa : f a with
      | error e => rw [hfa] at h; cases h
      | ok sa =>
          rw [hfa] at h
          cases hrest : resolveIncludesWith f rest with
          | error e => rw [hrest] at h; cases h
          | ok t =>
              rw [hrest] at h
              cases h
              exact List.Nodup.union sa (ih hrest)

/-- If every member resolves or fails with a cyclic reference, the fold
succeeds or fails with a cyclic reference. -/
theorem riw_ok_or_cyclic {f : String → Except Err (List String)} :
    ∀ {l : List String},
      (∀ inc ∈ l, (∃ si, f inc = .ok si) ∨
        (∃ c, f inc = .error (.cyclicGroupReference c))) →
      (∃ s, resolveIncludesWith f l = .ok s) ∨
      (∃ c, resolveIncludesWith f l = .error (.cyclicGroupReference c)) := by
  intro l
  induction l with
  | nil => intro _; exact Or.inl ⟨[], rfl⟩
  | cons a rest ih =>
      intro h
      rcases h a (List.mem_cons_self a rest) with ⟨sa, hsa⟩ | ⟨c, hc⟩
      · rcases ih (fun inc hinc => h inc (List.mem_cons_of_mem a hinc)) with
          ⟨t, ht⟩ | ⟨c, hc⟩
        · exact Or.inl ⟨sa ∪ t, by simp only [resolveIncludesWith, hsa, ht]⟩
        · exact Or.inr ⟨c, by simp only [resolveIncludesWith, hsa, hc]⟩
      · exact Or.inr ⟨c, by simp only [resolveIncludesWith, hc]⟩

/-- A duplicate-free path of registered names is no longer than the
group registry. -/
theorem path_length_le {gl : GroupList} {path : List String}
    (hnd : path.Nodup) (hsub : ∀ p ∈ path, p ∈ groupNames gl) :
    path.length ≤ gl.groups.length := by
  have h1 : path.toFinset.card = path.length := List.toFinset_card_of_nodup hnd
  have h2 : path.toFinset ⊆ (groupNames gl).toFinset := by
    intro x hx
    rw [List.mem_toFinset] at hx ⊢
    exact hsub x hx
  have h3 := Finset.card_le_card h2
  have h4 := List.toFinset_card_le (groupNames gl)
  have h5 : (groupNames gl).length = gl.groups.length := by
    simp [groupNames]
  omega

/-- Membership in a successful resolution: exactly the explicit elements
of the groups reachable through includes. -/
theorem resolve_ok_mem {gl : GroupList} : ∀ (fuel : Nat) (path : List String)
    (name : String) (s : List String),
    resolveGroupAux gl fuel path name = .ok s →
    ∀ x, x ∈ s ↔ ∃ t, Reaches gl name t ∧
      ∃ g, gl.get_group t = some g ∧ x ∈ g.elements := by
  intro fuel
  induction fuel with
  | zero =>
      intro path name s h
      rw [resolveGroupAux_zero] at h
      cases h
  | succ fuel ih =>
      intro path name s h x
      rw [resolveGroupAux_succ] at h
      by_cases hmem : name ∈ path
      · rw [if_pos hmem] at h; cases h
      · rw [if_neg hmem] at h
        cases hg : gl.get_group name with
        | none => rw [hg] at h; cases h
        | some g =>
            simp only [hg] at h
            cases hriw : resolveIncludesWith
                (resolveGroupAux gl fuel (name :: path)) g.includes with
            | error e => rw [hriw] at h; cases h
            | ok s' =>
                rw [hriw] at h
                cases h
                rw [List.mem_union_iff]
                constructor
                · rintro (hx | hx)
                  · exact ⟨name, Relation.ReflTransGen.refl, g, hg, hx⟩
                  · obtain ⟨inc, hinc, si, hsi, hxi⟩ := (riw_mem_ok hriw x).1 hx
                    obtain ⟨t, hrt, g', hg', hx'⟩ := (ih _ inc si hsi x).1 hxi
                    exact ⟨t, Relation.ReflTransGen.head ⟨g, hg, hinc⟩ hrt,
                      g', hg', hx'⟩
                · rintro ⟨t, hrt, g', hg', hx'⟩
                  rcases Relation.ReflTransGen.cases_head hrt with heq | ⟨m, hedge, hrt'⟩
                  · subst heq
                    rw [hg] at hg'
                    cases hg'
                    exact Or.inl hx'
                  · obtain ⟨g₀, hg₀, hm⟩ := hedge
                    rw [hg] at hg₀
                    cases hg₀
                    obtain ⟨si, hsi⟩ := riw_ok_of_mem hriw m hm
                    have hxi : x ∈ si :=
                      (ih _ m si hsi x).2 ⟨t, hrt', g', hg', hx'⟩
                    exact Or.inr ((riw_mem_ok hriw x).2 ⟨m, hm, si, hsi, hxi⟩)

/-- A successful resolution is duplicate-free. -/
theorem resolve_ok_nodup {gl : GroupList} : ∀ (fuel : Nat) (path : List String)
    (name : String) (s : List String),
    resolveGroupAux gl fuel path name = .ok s → s.Nodup := by
  intro fuel
  induction fuel with
  | zero =>
      intro path name s h
      rw [resolveGroupAux_zero] at h
      cases h
  | succ fuel ih =>
      intro path name s h
      rw [resolveGroupAux_succ] at h
      by_cases hmem : name ∈ path
      · rw [if_pos hmem] at h; cases h
      · rw [if_neg hmem] at h
        cases hg : gl.get_group name with
        | none => rw [hg] at h; cases h
        | some g =>
            simp only [hg] at h
            cases hriw : resolveIncludesWith
                (resolveGroupAux gl fuel (name :: path)) g.includes with
            | error e => rw [hriw] at h; cases h
            | ok s' =>
                rw [hriw] at h
                cases h
                exact List.Nodup.union g.elements (riw_nodup hriw)

/-- A success at one visited path yields a success at every node reachable
from it, on an extended path. -/
theorem resolve_ok_extend {gl : GroupList} {a c : String}
    (hreach : Reaches gl a c) :
    ∀ (fuel : Nat) (path : List String) (s : List String),
      resolveGroupAux gl fuel path a = .ok s →
      ∃ fuel' path' s', resolveGroupAux gl fuel' path' c = .ok s' ∧
        path ⊆ path' := by
  induction hreach using Relation.ReflTransGen.head_induction_on with
  | refl =>
      intro fuel path s h
      exact ⟨fuel, path, s, h, fun _ hx => hx⟩
  | @head a' m hedge _ ih =>
      intro fuel path s h
      cases fuel with
      | zero => rw [resolveGroupAux_zero] at h; cases h
      | succ fuel =>
          rw [resolveGroupAux_succ] at h
          by_cases hmem : a' ∈ path
          · rw [if_pos hmem] at h; cases h
          · rw [if_neg hmem] at h
            cases hg : gl.get_group a' with
            | none => rw [hg] at h; cases h
            | some g =>
                simp only [hg] at h
                cases hriw : resolveIncludesWith
                    (resolveGroupAux gl fuel (a' :: path)) g.includes with
                | error e => rw [hriw] at h; cases h
                | ok s' =>
                    obtain ⟨g₀, hg₀, hm⟩ := hedge
                    rw [hg] at hg₀
                    cases hg₀
                    obtain ⟨si, hsi⟩ := riw_ok_of_mem hriw m hm
                    obtain ⟨f', p', s'', hok, hsub⟩ := ih fuel (a' :: path) si hsi
                    exact ⟨f', p', s'', hok,
                      fun y hy => hsub (List.mem_cons_of_mem a' hy)⟩

/-- A successful resolution implies no cycle is reachable from the
resolved group. -/
theorem resolve_ok_no_cycle {gl : GroupList} {fuel : Nat} {path : List String}
    {name : String} {s : List String}
    (h : resolveGroupAux gl fuel path name = .ok s) :
    ¬ ReachesCycle gl name := by
  rintro ⟨t, hreach, hcyc⟩
  obtain ⟨f₁, p₁, s₁, hok₁, _⟩ := resolve_ok_extend hreach fuel path s h
  obtain ⟨m, hedge, hreach'⟩ := (Relation.TransGen.head'_iff).1 hcyc
  cases f₁ with
  | zero => rw [resolveGroupAux_zero] at hok₁; cases hok₁
  | succ f =>
      rw [resolveGroupAux_succ] at hok₁
      by_cases hmem : t ∈ p₁
      · rw [if_pos hmem] at hok₁; cases hok₁
      · rw [if_neg hmem] at hok₁
        cases hg : gl.get_group t with
        | none => rw [hg] at hok₁; cases hok₁
        | some g =>
            simp only [hg] at hok₁
            cases hriw : resolveIncludesWith
                (resolveGroupAux gl f (t :: p₁)) g.includes with
            | error e => rw [hriw] at hok₁; cases hok₁
            | ok s' =>
                obtain ⟨g₀, hg₀, hm⟩ := hedge
                rw [hg] at hg₀
                cases hg₀
                obtain ⟨si, hsi⟩ := riw_ok_of_mem hriw m hm
                obtain ⟨f₂, p₂, s₂, hok₂, hsub⟩ :=
                  resolve_ok_extend hreach' f (t :: p₁) si hsi
                have htp₂ : t ∈ p₂ := hsub (List.mem_cons_self t p₁)
                cases f₂ with
                | zero => rw [resolveGroupAux_zero] at hok₂; cases hok₂
                | succ f₂' =>
                    rw [resolveGroupAux_succ, if_pos htp₂] at hok₂
                    cases hok₂

/-- With enough fuel, a well-formed group list resolves every registered
group either successfully or with a `CyclicGroupReference` error — never
with `unknownGroup` or `depthExceeded`. -/
theorem resolve_ok_or_cyclic {gl : GroupList} (hwf : WellFormedGL gl) :
    ∀ (fuel : Nat) (path : List String) (name : String),
      gl.groups.length + 1 ≤ fuel + path.length → path.Nodup →
      (∀ p ∈ path, p ∈ groupNames gl) → name ∈ groupNames gl →
      (∃ s, resolveGroupAux gl fuel path name = .ok s) ∨
      (∃ c, resolveGroupAux gl fuel path name =
        .error (.cyclicGroupReference c)) := by
  intro fuel
  induction fuel with
  | zero =>
      intro path name hb hnd hsub _
      exfalso
      have := path_length_le hnd hsub
      omega
  | succ fuel ih =>
      intro path name hb hnd hsub hname
      by_cases hmem : name ∈ path
      · exact Or.inr ⟨name, by rw [resolveGroupAux_succ, if_pos hmem]⟩
      · obtain ⟨g, hg⟩ := mem_groupNames_iff.1 hname
        have hginc : ∀ inc ∈ g.includes, inc ∈ groupNames gl :=
          fun inc hinc => hwf g (get_group_mem hg).1 inc hinc
        have hper : ∀ inc ∈ g.includes,
            (∃ si, resolveGroupAux gl fuel (name :: path) inc = .ok si) ∨
            (∃ c, resolveGroupAux gl fuel (name :: path) inc =
              .error (.cyclicGroupReference c)) := by
          intro inc hinc
          apply ih (name :: path) inc
          · simp only [List.length_cons]; omega
          · exact List.nodup_cons.2 ⟨hmem, hnd⟩
          · intro p hp
            rcases List.mem_cons.1 hp with heq | hp'
            · exact heq ▸ hname
            · exact hsub p hp'
          · exact hginc inc hinc
        rcases riw_ok_or_cyclic hper with ⟨s', hs'⟩ | ⟨c, hc⟩
        · exact Or.inl ⟨g.elements ∪ s',
            by rw [resolveGroupAux_succ, if_neg hmem]; simp only [hg, hs']⟩
        · exact Or.inr ⟨c,
            by rw [resolveGroupAux_succ, if_neg hmem]; simp only [hg, hc]⟩

/-- With enough fuel, a registered group from which no cycle is reachable
resolves successfully (the visited path holding only strict ancestors). -/
theorem resolve_ok_of_acyclic {gl : GroupList} (hwf : WellFormedGL gl) :
    ∀ (fuel : Nat) (path : List String) (name : String),
      gl.groups.length + 1 ≤ fuel + path.length → path.Nodup →
      (∀ p ∈ path, p ∈ groupNames gl) → name ∈ groupNames gl →
      (∀ p ∈ path, Relation.TransGen (IncludeEdge gl) p name) →
      ¬ ReachesCycle gl name →
      ∃ s, resolveGroupAux gl fuel path name = .ok s := by
  intro fuel
  induction fuel with
  | zero =>
      intro path name hb hnd hsub _ _ _
      exfalso
      have := path_length_le hnd hsub
      omega
  | succ fuel ih =>
      intro path name hb hnd hsub hname hanc hnc
      have hmem : name ∉ path := by
        intro hmem
        exact hnc ⟨name, Relation.ReflTransGen.refl, hanc name hmem⟩
      obtain ⟨g, hg⟩ := mem_groupNames_iff.1 hname
      have hall : ∀ inc ∈ g.includes,
          ∃ si, resolveGroupAux gl fuel (name :: path) inc = .ok si := by
        intro inc hinc
        have hedge : IncludeEdge gl name inc := ⟨g, hg, hinc⟩
        apply ih (name :: path) inc
        · simp only [List.length_cons]; omega
        · exact List.nodup_cons.2 ⟨hmem, hnd⟩
        · intro p hp
          rcases List.mem_cons.1 hp with heq | hp'
          · exact heq ▸ hname
          · exact hsub p hp'
        · exact hwf g (get_group_mem hg).1 inc hinc
        · intro p hp
          rcases List.mem_cons.1 hp with heq | hp'
          · exact heq ▸ Relation.TransGen.single hedge
          · exact Relation.TransGen.tail (hanc p hp') hedge
        · rintro ⟨t, hr, hc⟩
          exact hnc ⟨t, Relation.ReflTransGen.head hedge hr, hc⟩
      obtain ⟨s', hs'⟩ := riw_ok_of_all hall
      exact ⟨g.elements ∪ s',
        by rw [resolveGroupAux_succ, if_neg hmem]; simp only [hg, hs']⟩

/-- C9: group resolution over a well-formed group list, requested on
registered groups, never hangs or exhausts its recursion bound: when some
requested group reaches a cycle of the includes relation, it fails with a
`CyclicGroupReference` error; for acyclic (from the requested groups)
definitions, it succeeds and returns the exact duplicate-free union of the
explicit elements across the transitive closure of includes. -/
theorem group_resolution_cycles_and_union (gl : GroupList)
    (names : List String) (hwf : WellFormedGL gl)
    (hreq : ∀ n ∈ names, n ∈ groupNames gl) :
    ((∃ n ∈ names, ReachesCycle gl n) →
      ∃ c, gl.get_elements names = .error (.cyclicGroupReference c)) ∧
    ((∀ n ∈ names, ¬ ReachesCycle gl n) →
      ∃ s, gl.get_elements names = .ok s ∧ s.Nodup ∧
        ∀ x, x ∈ s ↔ ∃ n ∈ names, ∃ t, Reaches gl n t ∧
          ∃ g, gl.get_group t = some g ∧ x ∈ g.elements) := by
  constructor
  · rintro ⟨n, hn, hcyc⟩
    have hper : ∀ x ∈ names,
        (∃ s, resolveGroupAux gl (gl.groups.length + 1) [] x = .ok s) ∨
        (∃ c, resolveGroupAux gl (gl.groups.length + 1) [] x =
          .error (.cyclicGroupReference c)) := by
      intro x hx
      exact resolve_ok_or_cyclic hwf (gl.groups.length + 1) [] x
        (by simp) List.nodup_nil (by simp) (hreq x hx)
    rcases riw_ok_or_cyclic hper with ⟨s, hs⟩ | ⟨c, hc⟩
    · exfalso
      obtain ⟨sn, hsn⟩ := riw_ok_of_mem hs n hn
      exact resolve_ok_no_cycle hsn hcyc
    · exact ⟨c, hc⟩
  · intro hnc
    have hall : ∀ x ∈ names,
        ∃ s, resolveGroupAux gl (gl.groups.length + 1) [] x = .ok s := by
      intro x hx
      exact resolve_ok_of_acyclic hwf (gl.groups.length + 1) [] x
        (by simp) List.nodup_nil (by simp) (hreq x hx) (by simp) (hnc x hx)
    obtain ⟨s, hs⟩ := riw_ok_of_all hall
    refine ⟨s, hs, riw_nodup hs, ?_⟩
    intro x
    rw [riw_mem_ok hs x]
    constructor
    · rintro ⟨n, hn, sn, hsn, hxn⟩
      obtain ⟨t, hrt, g, hg, hx⟩ := (resolve_ok_mem _ _ _ _ hsn x).1 hxn
      exact ⟨n, hn, t, hrt, g, hg, hx⟩
    · rintro ⟨n, hn, t, hrt, g, hg, hx⟩
      obtain ⟨sn, hsn⟩ := hall n hn
      exact ⟨n, hn, sn, hsn, (resolve_ok_mem _ _ _ _ hsn x).2 ⟨t, hrt, g, hg, hx⟩⟩

/-- Witness for C9: the canonical two-group cycle (A includes B, B
includes A) is well formed, reaches a cycle, and resolution reports a
`CyclicGroupReference` instead of looping. -/
theorem group_resolution_cycles_and_union_witness :
    WellFormedGL cycleGL ∧
    (∃ n ∈ ["A"], ReachesCycle cycleGL n) ∧
    (∃ c, cycleGL.get_elements ["A"] = .error (.cyclicGroupReference c)) :=
  have e₁ : IncludeEdge cycleGL "A" "B" :=
    ⟨⟨"A", ["a"], ["B"]⟩, by decide, by decide⟩
  have e₂ : IncludeEdge cycleGL "B" "A" :=
    ⟨⟨"B", ["b"], ["A"]⟩, by decide, by decide⟩
  have hcyc : ∃ n ∈ ["A"], ReachesCycle cycleGL n :=
    ⟨"A", by decide, "A", Relation.ReflTransGen.refl,
      Relation.TransGen.head e₁ (Relation.TransGen.single e₂)⟩
  have hwf : WellFormedGL cycleGL := by
    unfold WellFormedGL
    decide
  ⟨hwf, hcyc,
    (group_resolution_cycles_and_union cycleGL ["A"] hwf (by decide)).1 hcyc⟩

end Tsrc
